import Mathlib

/-!
Verification of the sql-scraper column-provenance analyzer.

This file shallowly embeds the data holder `Column` and the pure resolution,
join-extraction, ambiguity-filter and lineage-flattening routines of
`QueryParser/QueryParser.py` and `QueryParser/Column.py`, and proves theorems
checking the specification's claims against them.

Modelling conventions:
- Python `str.lower()` / `str.upper()` are modelled on the ASCII range
  (`py_lower` / `py_upper`), which is faithful for SQL identifiers.
- Python dicts used as maps are modelled as association lists with
  first-match lookup (`alookup`); insertion-ordered dict grouping is modelled
  by first-occurrence key deduplication (`dedupFirstBy`) plus filtering.
- Python `None` and empty list/string are distinguished only where the code
  distinguishes them; wherever the code tests only truthiness (for example
  `if column.lineage:`), the empty list models both.
- The external AST provider (sqlglot) is modelled by the `Expr` tree and a
  serialization parameter of type `Expr → String`.
-/

/-- ASCII lowercase of one character, as Python `str.lower` acts on ASCII. -/
def lowerChar (c : Char) : Char :=
  if 65 ≤ c.toNat ∧ c.toNat ≤ 90 then Char.ofNat (c.toNat + 32) else c

/-- ASCII uppercase of one character, as Python `str.upper` acts on ASCII. -/
def upperChar (c : Char) : Char :=
  if 97 ≤ c.toNat ∧ c.toNat ≤ 122 then Char.ofNat (c.toNat - 32) else c

/-- Python `s.lower()` restricted to ASCII letters. -/
def py_lower (s : String) : String := String.mk (s.data.map lowerChar)

/-- Python `s.upper()` restricted to ASCII letters. -/
def py_upper (s : String) : String := String.mk (s.data.map upperChar)

/-- Characters stripped by Python `str.strip()` with no argument. -/
def isPySpace (c : Char) : Bool :=
  c = ' ' || c = '\t' || c = '\n' || c = '\r' || c.toNat == 11 || c.toNat == 12

/-- Python `s.strip()`: drop leading and trailing whitespace. -/
def py_strip (s : String) : String :=
  String.mk (((s.data.dropWhile isPySpace).reverse.dropWhile isPySpace).reverse)

/-- First-match lookup in an association list, modelling Python `dict.get`. -/
def alookup {α : Type} : List (String × α) → String → Option α
  | [], _ => none
  | (k, v) :: rest, key => if k = key then some v else alookup rest key

/-- Lexicographic Boolean order on character lists (Python string `<=`). -/
def charsLe : List Char → List Char → Bool
  | [], _ => true
  | _ :: _, [] => false
  | a :: as, b :: bs =>
    if a.toNat < b.toNat then true
    else if b.toNat < a.toNat then false
    else charsLe as bs

/-- Python string comparison `a <= b`, code-point lexicographic. -/
def strLe (a b : String) : Bool := charsLe a.data b.data

/-- Insert a string into a `strLe`-sorted list, keeping it sorted. -/
def insertSorted (s : String) : List String → List String
  | [] => [s]
  | t :: ts => if strLe s t then s :: t :: ts else t :: insertSorted s ts

/-- Stable insertion sort by `strLe`, modelling Python `sorted` on strings. -/
def sortStrings : List String → List String
  | [] => []
  | s :: ss => insertSorted s (sortStrings ss)

/-- Generic first-occurrence deduplication by a key function, threading the
set of already seen keys; this models every `seen`-set loop in the source
as well as insertion-ordered `dict` key collection. -/
def dedupFirstBy {α κ : Type} [DecidableEq κ] (key : α → κ) :
    List κ → List α → List α
  | _, [] => []
  | seen, x :: xs =>
    if key x ∈ seen then dedupFirstBy key seen xs
    else x :: dedupFirstBy key (key x :: seen) xs

/-- Python `sorted(set(xs))` for strings: deduplicate, then sort. -/
def sorted_dedup (xs : List String) : List String :=
  sortStrings (dedupFirstBy (fun s => s) [] xs)

/-- Source `QueryParser._merge_sources`: append `right` onto `left` keeping
order and uniqueness (the `seen` set always holds exactly the members of the
accumulated list, so membership in the accumulator models it). -/
def merge_sources (left right : List String) : List String :=
  right.foldl (fun merged source =>
    if source ∈ merged then merged else merged ++ [source]) left

/-- The repository's `Column` data holder (`Column.py`): a column name, the
candidate source tables, and an optional lineage list.  `lineage = []` models
both Python `None` and the empty list, which every embedded routine tells
apart only by truthiness. -/
inductive Column where
  | mk (col_name : String) (potential_tables : List String) (lineage : List Column)

/-- Projection: the column's name. -/
def Column.col_name : Column → String
  | .mk n _ _ => n

/-- Projection: the column's candidate source tables. -/
def Column.potential_tables : Column → List String
  | .mk _ t _ => t

/-- Projection: the column's lineage entries. -/
def Column.lineage : Column → List Column
  | .mk _ _ l => l

mutual
/-- Structural size of a `Column`, used as a termination measure. -/
def sizeC : Column → Nat
  | .mk _ _ l => 1 + sizeCs l
/-- Structural size of a list of `Column`s. -/
def sizeCs : List Column → Nat
  | [] => 0
  | c :: cs => sizeC c + sizeCs cs
end

/-- Dedup key used by `_filter_redundant_ambiguity`'s final unique pass:
`(column.col_name.lower(), tuple(column.potential_tables))`. -/
def ckey (c : Column) : String × List String :=
  (py_lower c.col_name, c.potential_tables)

/-- The insertion-ordered keys of the Python `grouped` dict in
`_filter_redundant_ambiguity`: distinct lowercase names in first-occurrence
order. -/
def group_keys (columns : List Column) : List String :=
  dedupFirstBy (fun s => s) [] (columns.map fun c => py_lower c.col_name)

/-- The entries of one group of the Python `grouped` dict: the input columns
whose lowercase name equals the key, in input order. -/
def group_entries (columns : List Column) (k : String) : List Column :=
  columns.filter fun c => py_lower c.col_name == k

/-- The `unambiguous_tables` set of `_filter_redundant_ambiguity`: the single
candidate table of every single-table instance in the group (membership is
all the code ever uses, so a list with the same members models the set). -/
def unamb_tables (entries : List Column) : List String :=
  entries.filterMap fun c =>
    match c.potential_tables with
    | [t] => some t
    | _ => none

/-- Loop body of `_filter_redundant_ambiguity` for one column of a group:
keep instances with at most one candidate; narrow an ambiguous instance to
`sorted(set(intersection))` when its candidates intersect the unambiguous
tables; drop it (`continue`) when afterwards it still has more than one
candidate and all of them are unambiguous tables. -/
def group_step (unambiguous_tables : List String) (c : Column) : List Column :=
  if c.potential_tables.length ≤ 1 then [c]
  else
    let intersection :=
      c.potential_tables.filter fun t => decide (t ∈ unambiguous_tables)
    let pt :=
      if intersection ≠ [] then sorted_dedup intersection
      else c.potential_tables
    if pt.length > 1 ∧ pt ≠ [] ∧ (∀ t ∈ pt, t ∈ unambiguous_tables) then []
    else [Column.mk c.col_name pt c.lineage]

/-- Source `QueryParser._filter_redundant_ambiguity`: group by lowercase
name, apply `group_step` per instance, then deduplicate the concatenation by
`(lowercase name, table tuple)` keeping first occurrences. -/
def filter_redundant_ambiguity (columns : List Column) : List Column :=
  dedupFirstBy ckey []
    ((group_keys columns).flatMap fun k =>
      let entries := group_entries columns k
      entries.flatMap (group_step (unamb_tables entries)))

/-- Claim C2 verbatim, written from the spec's words: ambiguous instances
narrowed to the sorted deduplicated intersection; an instance whose
post-narrowing candidates are all known-unambiguous dropped (with no
`more than one` guard); all other instances kept; output deduplicated by
`(name, sorted table tuple)`. -/
def classify_claim (unambiguous_tables : List String) (c : Column) : Option Column :=
  if c.potential_tables.length ≤ 1 then some c
  else
    let intersection :=
      c.potential_tables.filter fun t => decide (t ∈ unambiguous_tables)
    let pt :=
      if intersection ≠ [] then sorted_dedup intersection
      else c.potential_tables
    if ∀ t ∈ pt, t ∈ unambiguous_tables then none
    else some (Column.mk c.col_name pt c.lineage)

/-- Dedup key demanded by claim C2's wording: lowercase name with the table
tuple sorted. -/
def sorted_ckey (c : Column) : String × List String :=
  (py_lower c.col_name, sortStrings c.potential_tables)

/-- The ambiguity filter exactly as claim C2 words it (see `classify_claim`
and `sorted_ckey`). -/
def spec_filter_claim (columns : List Column) : List Column :=
  dedupFirstBy sorted_ckey []
    ((group_keys columns).flatMap fun k =>
      let entries := group_entries columns k
      entries.filterMap (classify_claim (unamb_tables entries)))

/-- Claim C2 amended to match the code: the drop test additionally requires
more than one post-narrowing candidate, and the final dedup key is the table
tuple as stored (not sorted). -/
def classify_amended (unambiguous_tables : List String) (c : Column) : Option Column :=
  if c.potential_tables.length ≤ 1 then some c
  else
    let intersection :=
      c.potential_tables.filter fun t => decide (t ∈ unambiguous_tables)
    let pt :=
      if intersection ≠ [] then sorted_dedup intersection
      else c.potential_tables
    if pt.length > 1 ∧ (∀ t ∈ pt, t ∈ unambiguous_tables) then none
    else some (Column.mk c.col_name pt c.lineage)

/-- The ambiguity filter as described by the amended claim C2. -/
def spec_filter_amended (columns : List Column) : List Column :=
  dedupFirstBy ckey []
    ((group_keys columns).flatMap fun k =>
      let entries := group_entries columns k
      entries.filterMap (classify_amended (unamb_tables entries)))

/-- Source `QueryParser._normalize_lineage_entries` on the dict/`Column`
entry shape `(name, tables, lineage)`: entries with an empty name are
replaced by their (normalized) nested entries, or discarded when those are
empty; named entries keep their tables and carry their normalized nested
entries (an absent `lineage` key is the empty list). -/
def normalize_lineage_entries : List Column → List Column
  | [] => []
  | .mk n t sub :: rest =>
    let nested := normalize_lineage_entries sub
    if n = "" then nested ++ normalize_lineage_entries rest
    else .mk n t nested :: normalize_lineage_entries rest

/-- Lemma-free helper facts are proved later; this size bound is needed to
justify termination of `lineage_leaf_entries` below. -/
theorem sizeCs_append (a b : List Column) :
    sizeCs (a ++ b) = sizeCs a + sizeCs b := by
  induction a with
  | nil => simp [sizeCs]
  | cons c cs ih => simp [sizeCs, ih]; omega

/-- Normalization never grows the structural size (termination measure
bound for `lineage_leaf_entries`). -/
theorem sizeCs_normalize_le (l : List Column) :
    sizeCs (normalize_lineage_entries l) ≤ sizeCs l := by
  induction l using normalize_lineage_entries.induct with
  | case1 => simp [normalize_lineage_entries, sizeCs]
  | case2 t sub rest ih2 ih1 =>
    have happ := sizeCs_append (normalize_lineage_entries sub)
      (normalize_lineage_entries rest)
    simp only [normalize_lineage_entries]
    simp [sizeCs, sizeC]
    omega
  | case3 n t sub rest h ih2 ih1 =>
    simp only [normalize_lineage_entries]
    rw [if_neg h]
    simp [sizeCs, sizeC]
    omega

mutual
/-- Source `QueryParser._lineage_leaf_entries`: normalize the entries, then
collect terminal entries; an entry with (normalized) nested lineage
contributes the recursively flattened leaves of that lineage, an entry
without one is kept exactly when it has a non-empty name and a non-empty
table list. -/
def lineage_leaf_entries (entries : List Column) : List (String × List String) :=
  lineage_leaf_go (normalize_lineage_entries entries)
termination_by (sizeCs entries, 1)
decreasing_by
  have h := sizeCs_normalize_le entries
  omega

/-- Loop of `_lineage_leaf_entries` over the normalized entries. -/
def lineage_leaf_go : List Column → List (String × List String)
  | [] => []
  | .mk n t sub :: rest =>
    (if sub.isEmpty then (if n ≠ "" ∧ t ≠ [] then [(n, t)] else [])
     else lineage_leaf_entries sub) ++ lineage_leaf_go rest
termination_by l => (sizeCs l, 0)
decreasing_by
  all_goals (simp [sizeCs, sizeC]; omega)
end

mutual
/-- A lineage entry is vacuous when it has an empty name and only vacuous
nested entries; vacuous entries are exactly the ones normalization
discards. -/
def vacuousC : Column → Bool
  | .mk n _ sub => (n == "") && allVacuous sub
/-- Every entry of the list is vacuous. -/
def allVacuous : List Column → Bool
  | [] => true
  | c :: cs => vacuousC c && allVacuous cs
end

/-- Claim C5 verbatim: collect exactly the entries that carry no further
lineage (a literally empty `lineage` list) and have a non-empty name and a
non-empty table list; recurse into every non-empty lineage. -/
def claim_leaf_entries : List Column → List (String × List String)
  | [] => []
  | .mk n t sub :: rest =>
    (if sub.isEmpty then (if n ≠ "" ∧ t ≠ [] then [(n, t)] else [])
     else claim_leaf_entries sub) ++ claim_leaf_entries rest
termination_by l => sizeCs l
decreasing_by
  all_goals simp [sizeCs, sizeC]
  all_goals omega

/-- Claim C5 amended: an entry counts as a leaf when its lineage consists
only of vacuous entries (in particular when it is empty); leaves are kept
exactly when name and tables are non-empty. -/
def spec_leaf_entries : List Column → List (String × List String)
  | [] => []
  | .mk n t sub :: rest =>
    (if allVacuous sub then (if n ≠ "" ∧ t ≠ [] then [(n, t)] else [])
     else spec_leaf_entries sub) ++ spec_leaf_entries rest
termination_by l => sizeCs l
decreasing_by
  all_goals simp [sizeCs, sizeC]
  all_goals omega

/-- Reversal preserves the structural size (termination measure bound for
the stack loop of `lineage_table_sets`). -/
theorem sizeCs_reverse (l : List Column) : sizeCs l.reverse = sizeCs l := by
  induction l with
  | nil => rfl
  | cons c cs ih =>
    rw [List.reverse_cons, sizeCs_append]
    simp [sizeCs]
    omega

/-- Source `Column.lineage_table_sets` stack loop.  The Python stack keeps
its top at the end (`list.pop` / `list.extend`); the embedding keeps the top
at the head, so `extend` becomes prepending the reversed lineage.  The
`seen_known` / `seen_potential` sets always hold exactly the members of the
corresponding accumulator lists, so accumulator membership models them. -/
def lineage_loop : List Column → List String → List String → List String × List String
  | [], known, potential => (known, potential)
  | c :: rest, known, potential =>
    if c.lineage.isEmpty then
      match c.potential_tables with
      | [] => lineage_loop rest known potential
      | [t] =>
        lineage_loop rest (if t ∈ known then known else known ++ [t]) potential
      | ts =>
        lineage_loop rest known
          (ts.foldl (fun acc t => if t ∈ acc then acc else acc ++ [t]) potential)
    else lineage_loop (c.lineage.reverse ++ rest) known potential
termination_by stack _ _ => sizeCs stack
decreasing_by
  · cases c with
    | mk nm tb ln => simp [sizeC, sizeCs]
  · cases c with
    | mk nm tb ln => simp [sizeC, sizeCs]
  · cases c with
    | mk nm tb ln => simp [sizeC, sizeCs]
  · rw [sizeCs_append, sizeCs_reverse]
    cases c with
    | mk nm tb ln => simp [Column.lineage, sizeC, sizeCs]

/-- Source `Column.lineage_table_sets`: run the traversal from the column
itself with empty accumulators and return each bucket, `none` standing for
the Python `None` that replaces an empty list. -/
def lineage_table_sets (c : Column) : Option (List String) × Option (List String) :=
  let r := lineage_loop [c] [] []
  ((if r.1 = [] then none else some r.1), (if r.2 = [] then none else some r.2))

mutual
/-- The leaf sequence of the stack traversal in `lineage_table_sets`: a
column with no lineage is its own leaf; otherwise its lineage entries are
visited last-first (stack order). -/
def leafSeq (c : Column) : List Column :=
  if c.lineage.isEmpty then [c] else leafSeqRev c.lineage
termination_by (sizeC c, 0)
decreasing_by
  cases c with
  | mk n t l => simp [Column.lineage, sizeC]; omega

/-- Leaf sequences of a list of columns, visiting the list from its end
(matching `list.pop` from the stack's tail). -/
def leafSeqRev : List Column → List Column
  | [] => []
  | c :: cs => leafSeqRev cs ++ leafSeq c
termination_by l => (sizeCs l, 1)
decreasing_by
  · simp [sizeCs]
    cases c with
    | mk n t l => simp [sizeC]; omega
  · simp [sizeCs]
    cases c with
    | mk n t l => simp [sizeC]; omega
end

/-- Tables contributed to `known_tables`: the single table of each leaf that
has exactly one candidate table. -/
def single_tables (leaves : List Column) : List String :=
  leaves.filterMap fun c =>
    match c.potential_tables with
    | [t] => some t
    | _ => none

/-- Tables contributed to `potential_tables`: all tables of each leaf with
two or more candidate tables, in leaf order. -/
def multi_tables (leaves : List Column) : List String :=
  leaves.flatMap fun c =>
    match c.potential_tables with
    | [] => []
    | [_] => []
    | ts => ts

/-- First-occurrence deduplication appended onto an accumulator, the shape
of the `known`/`potential` accumulation in `lineage_table_sets`. -/
def append_new (acc : List String) (xs : List String) : List String :=
  xs.foldl (fun a t => if t ∈ a then a else a ++ [t]) acc

/-- One relation descriptor of a select context (`_select_context`): its
alias (Python `None` or missing modelled as `none`), resolved tables, and
declared columns keyed by lowercase name, each entry reduced to the tables
the resolver reads from it (`entry.get("tables", [])`). -/
structure Relation where
  ralias : Option String
  tables : List String
  columns : List (String × List String)

/-- A select context as consumed by `_resolve_column_sources`: the
`default_tables` key (`none` models an absent key, in which case the
resolver falls back to the parser's source-table list) and the relation
descriptors. -/
structure SelectContext where
  default_tables : Option (List String)
  relations : List Relation

/-- The parser-global registries consulted by `_resolve_column_sources`:
`_alias_to_table`, `_alias_column_lineage` (each per-column entry reduced to
its tables) and the ordered `_source_tables` list. -/
structure GlobalMaps where
  alias_to_table : List (String × List String)
  alias_column_lineage : List (String × List (String × List String))
  source_tables : List String

/-- Source `QueryParser._relations_for_qualifier`: all relations when the
qualifier is falsy, else the relations whose alias (empty when absent)
matches the qualifier case-insensitively. -/
def relations_for_qualifier (relations : List Relation) (qualifier : Option String) :
    List Relation :=
  match qualifier with
  | none => relations
  | some q =>
    if q = "" then relations
    else relations.filter fun r => py_lower (r.ralias.getD "") == py_lower q

/-- The `column_key` computed by `_resolve_column_sources`: the lowercase
column name, or `none` when the name is falsy. -/
def column_key_of (column_name : Option String) : Option String :=
  match column_name with
  | some s => if s = "" then none else some (py_lower s)
  | none => none

/-- Alias-map fallback loop of `_resolve_column_sources`: try each case
variant of the qualifier against `_alias_to_table`; on the first truthy hit,
prefer the per-column lineage tables of `_alias_column_lineage` when the
column key is present there, else the resolved tables. -/
def alias_variant_lookup (g : GlobalMaps) (column_key : Option String) :
    List String → Option (List String)
  | [] => none
  | a :: rest =>
    match alookup g.alias_to_table a with
    | some resolved =>
      if resolved ≠ [] then
        let lineage := (alookup g.alias_column_lineage (py_lower a)).getD []
        match column_key with
        | some k =>
          match alookup lineage k with
          | some tables => some tables
          | none => some resolved
        | none => some resolved
      else alias_variant_lookup g column_key rest
    | none => alias_variant_lookup g column_key rest

/-- Unqualified branch of `_resolve_column_sources`: union the tables of
every relation declaring the column (deduplicated via `merge_sources`), else
fall back to the default tables, else the empty list. -/
def resolve_unqualified (default_tables : List String) (relations : List Relation)
    (column_key : Option String) : List String :=
  let scan := relations.foldl (fun acc r =>
    match column_key with
    | some k =>
      match alookup r.columns k with
      | some entry_tables => (acc.1 ++ entry_tables, true)
      | none => acc
    | none => acc) (([] : List String), false)
  if scan.2 ∧ scan.1 ≠ [] then merge_sources [] scan.1
  else if default_tables ≠ [] then default_tables
  else []

/-- Source `QueryParser._resolve_column_sources`.  With a truthy qualifier:
take the first relation matching it (the Python loop returns during its
first iteration) and answer from its declared columns or its table set;
with no matching relation consult the alias map under the as-written,
lowercase and uppercase variants; if that also fails return the qualifier
itself as a literal pseudo-table.  With a falsy qualifier resolve
unqualified.  A `none` context models the Python `select_context or {}`
defaulting. -/
def resolve_column_sources (g : GlobalMaps) (qualifier : Option String)
    (select_context : Option SelectContext) (column_name : Option String) :
    List String :=
  let default_tables :=
    match select_context with
    | none => g.source_tables
    | some ctx => ctx.default_tables.getD g.source_tables
  let relations :=
    match select_context with
    | none => []
    | some ctx => ctx.relations
  let column_key := column_key_of column_name
  match qualifier with
  | some q =>
    if q = "" then resolve_unqualified default_tables relations column_key
    else
      match relations_for_qualifier relations (some q) with
      | relation :: _ =>
        match column_key with
        | some k =>
          match alookup relation.columns k with
          | some entry_tables => entry_tables
          | none => relation.tables
        | none => relation.tables
      | [] =>
        match alias_variant_lookup g column_key [q, py_lower q, py_upper q] with
        | some resolved => resolved
        | none => [q]
  | none => resolve_unqualified default_tables relations column_key

/-- Result type of constructing the parser: either the validation error
raised for empty input, or delegation of the raw query and dialect to the
AST provider (`sqlglot.parse_one`).  The error is raised before any
attribute of the object is assigned, so no partial object exists. -/
inductive InitResult where
  | validationError (msg : String)
  | delegated (query : String) (dialect : String)
deriving DecidableEq

/-- Source `QueryParser.__init__` up to the delegation point: raise
`ValueError` when the query string is falsy or strips to nothing, otherwise
hand the unmodified query and dialect to the AST provider. -/
def query_parser_init (query : String) (dialect : String) : InitResult :=
  if query = "" ∨ py_strip query = "" then
    .validationError "A SQL string is required"
  else .delegated query dialect

/-- The fragment of the sqlglot expression tree consumed by the embedded
join-extraction routines: column references, identifiers, the logical
connectives and parentheses unwrapped by `_flatten_conditions`, binary
comparators carrying optional `this`/`expression` operands, and a generic
tagged node with ordered children for every other expression kind. -/
inductive Expr where
  | col (name : String) (table : String)
  | ident (text : String)
  | andE (lhs rhs : Expr)
  | orE (lhs rhs : Expr)
  | paren (inner : Expr)
  | cmp (tag : String) (lhs rhs : Option Expr)
  | node (tag : String) (children : List Expr)

mutual
/-- Structural size of an `Expr`, used as a termination measure. -/
def sizeE : Expr → Nat
  | .col _ _ => 1
  | .ident _ => 1
  | .andE l r => 1 + sizeE l + sizeE r
  | .orE l r => 1 + sizeE l + sizeE r
  | .paren i => 1 + sizeE i
  | .cmp _ l r => 1 + sizeEOpt l + sizeEOpt r
  | .node _ cs => 1 + sizeEs cs
/-- Structural size of an optional `Expr`. -/
def sizeEOpt : Option Expr → Nat
  | none => 0
  | some e => sizeE e
/-- Structural size of a list of `Expr`s. -/
def sizeEs : List Expr → Nat
  | [] => 0
  | e :: es => sizeE e + sizeEs es
end

/-- Child expressions of a node in sqlglot argument order, as walked by
`find_all` (identifier children of columns and identifiers hold no column
nodes, so they are dropped). -/
def exprChildren : Expr → List Expr
  | .col _ _ => []
  | .ident _ => []
  | .andE l r => [l, r]
  | .orE l r => [l, r]
  | .paren i => [i]
  | .cmp _ l r => l.toList ++ r.toList
  | .node _ cs => cs

/-- Whether an expression is a bare column reference (`exp.Column`). -/
def isColExpr : Expr → Bool
  | .col _ _ => true
  | _ => false

/-- Size bound used for the termination of the breadth-first search. -/
theorem sizeEs_append (a b : List Expr) :
    sizeEs (a ++ b) = sizeEs a + sizeEs b := by
  induction a with
  | nil => simp [sizeEs]
  | cons e es ih => simp [sizeEs, ih]; omega

/-- Children are strictly smaller than their parent node. -/
theorem sizeEs_children_lt (e : Expr) : sizeEs (exprChildren e) < sizeE e := by
  cases e with
  | col _ _ => simp [exprChildren, sizeEs, sizeE]
  | ident _ => simp [exprChildren, sizeEs, sizeE]
  | andE l r => simp [exprChildren, sizeEs, sizeE]
  | orE l r => simp [exprChildren, sizeEs, sizeE]
  | paren i => simp [exprChildren, sizeEs, sizeE]
  | cmp _ l r =>
    cases l <;> cases r <;>
      simp [exprChildren, sizeEs, sizeEOpt, sizeE, sizeEs_append]
  | node _ cs => simp [exprChildren, sizeEs, sizeE]

/-- The first column node of a subtree in breadth-first order, modelling
`next(expression.find_all(exp.Column), None)` (sqlglot walks breadth-first
by default). -/
def firstColumnBFS : List Expr → Option Expr
  | [] => none
  | e :: rest =>
    if isColExpr e then some e else firstColumnBFS (rest ++ exprChildren e)
termination_by queue => sizeEs queue
decreasing_by
  rw [sizeEs_append]
  have h := sizeEs_children_lt e
  simp [sizeEs]
  omega

/-- Source `QueryParser._flatten_conditions` on a present condition:
unwrap parentheses, flatten AND/OR trees, return every other node as an
atomic predicate. -/
def flatten_conditions_expr : Expr → List Expr
  | .paren inner => flatten_conditions_expr inner
  | .andE l r => flatten_conditions_expr l ++ flatten_conditions_expr r
  | .orE l r => flatten_conditions_expr l ++ flatten_conditions_expr r
  | e => [e]

/-- Source `QueryParser._flatten_conditions` (`None` yields no atoms). -/
def flatten_conditions : Option Expr → List Expr
  | none => []
  | some e => flatten_conditions_expr e

/-- The `args.get("this")` of a node, as read off a flattened comparator by
`_columns_from_condition` (a column's `this` is its name identifier; a
generic node's first child stands for its `this` argument). -/
def argThis : Expr → Option Expr
  | .col name _ => some (.ident name)
  | .ident _ => none
  | .andE l _ => some l
  | .orE l _ => some l
  | .paren i => some i
  | .cmp _ l _ => l
  | .node _ cs => cs.head?

/-- The `args.get("expression")` of a node (absent on columns, identifiers
and parentheses; a generic node's second child stands for it). -/
def argExpression : Expr → Option Expr
  | .col _ _ => none
  | .ident _ => none
  | .andE _ r => some r
  | .orE _ r => some r
  | .paren _ => none
  | .cmp _ _ r => r
  | .node _ cs => cs[1]?

/-- Source `QueryParser._column_from_expression`: `None` unless the
expression is a column node with a truthy name; otherwise a `Column` whose
tables come from `_resolve_column_sources` on the column's qualifier. -/
def column_from_expression (g : GlobalMaps) (expression : Option Expr)
    (select_context : Option SelectContext) : Option Column :=
  match expression with
  | some (.col name table) =>
    if name = "" then none
    else
      some (Column.mk name
        (resolve_column_sources g
          (if table = "" then some "" else some table) select_context (some name))
        [])
  | _ => none

/-- Source `QueryParser._extract_join_operand`: a missing operand gives
`(None, None)`; a bare column resolves with no complex text; any other
expression is re-serialized as the complex text and represented by its first
nested column (breadth-first), or by a tableless `Column` named by the
serialized text when no nested column resolves. -/
def extract_join_operand (g : GlobalMaps) (sqlOf : Expr → String)
    (expression : Option Expr) (select_context : Option SelectContext) :
    Option Column × Option String :=
  match expression with
  | none => (none, none)
  | some e =>
    if isColExpr e then (column_from_expression g (some e) select_context, none)
    else
      let complex_sql := sqlOf e
      let nested_column := firstColumnBFS [e]
      let column :=
        match nested_column with
        | some ce => column_from_expression g (some ce) select_context
        | none => none
      let column :=
        match column with
        | none => some (Column.mk complex_sql [] [])
        | some c => some c
      (column, some complex_sql)

/-- One join pair reported by the join extractor: the two operand columns
and the optional complex (re-serialized) texts. -/
structure JoinPair where
  column_left : Column
  column_right : Column
  complex_left : Option String
  complex_right : Option String

/-- Loop body of `_columns_from_condition` for one flattened comparator:
resolve both operands (with no select context, as the source calls it),
swap the pair — columns and complex texts together — when the parsed
orientation contradicts the accumulated left/right table sets, and fill a
missing operand with an empty placeholder column. -/
def pair_from_comparator (g : GlobalMaps) (sqlOf : Expr → String)
    (left_sources right_sources : List String) (comparator : Expr) : JoinPair :=
  let lres := extract_join_operand g sqlOf (argThis comparator) none
  let rres := extract_join_operand g sqlOf (argExpression comparator) none
  match lres.1, rres.1 with
  | some left_column, some right_column =>
    let left_from_left :=
      left_column.potential_tables.any fun t => decide (t ∈ left_sources)
    let right_from_left :=
      right_column.potential_tables.any fun t => decide (t ∈ left_sources)
    let left_from_right :=
      left_column.potential_tables.any fun t => decide (t ∈ right_sources)
    let right_from_right :=
      right_column.potential_tables.any fun t => decide (t ∈ right_sources)
    if !left_from_left && right_from_left then
      ⟨right_column, left_column, rres.2, lres.2⟩
    else if !right_from_right && left_from_right then
      ⟨right_column, left_column, rres.2, lres.2⟩
    else ⟨left_column, right_column, lres.2, rres.2⟩
  | lopt, ropt =>
    ⟨lopt.getD (Column.mk "" [] []), ropt.getD (Column.mk "" [] []), lres.2, rres.2⟩

/-- Source `QueryParser._columns_from_condition`: flatten the ON predicate
and build one (orientation-repaired) pair per atomic comparator. -/
def columns_from_condition (g : GlobalMaps) (sqlOf : Expr → String)
    (condition : Option Expr) (left_sources right_sources : List String) :
    List JoinPair :=
  (flatten_conditions condition).map
    (pair_from_comparator g sqlOf left_sources right_sources)

/-- Source `QueryParser._identifier_name`: `None` for a missing expression,
the raw text of an identifier, and the re-serialized text of anything else
(the Python `str` branch cannot be reached from expression trees). -/
def identifier_name (sqlOf : Expr → String) : Option Expr → Option String
  | none => none
  | some (.ident s) => some s
  | some e => some (sqlOf e)

/-- Source `QueryParser._columns_from_using`: one pair per listed column
with a truthy name, copying the accumulated left/right source tables and
never consulting any resolution state; the emitted dicts carry no complex
text. -/
def columns_from_using (sqlOf : Expr → String)
    (using_columns : Option (List Expr)) (left_sources right_sources : List String) :
    List JoinPair :=
  match using_columns with
  | none => []
  | some cols =>
    if cols.isEmpty then []
    else cols.filterMap fun identifier =>
      match identifier_name sqlOf (some identifier) with
      | none => none
      | some column_name =>
        if column_name = "" then none
        else
          some ⟨Column.mk column_name left_sources [],
                Column.mk column_name right_sources [], none, none⟩

/-! ### Generic lemmas about the embedded loop combinators -/

theorem mem_dedupFirstBy {α κ : Type} [DecidableEq κ] (key : α → κ) :
    ∀ (l : List α) (s : List κ) (x : α), x ∈ dedupFirstBy key s l → x ∈ l := by
  intro l
  induction l with
  | nil => intro s x h; simp [dedupFirstBy] at h
  | cons y ys ih =>
    intro s x h
    simp only [dedupFirstBy] at h
    by_cases hk : key y ∈ s
    · rw [if_pos hk] at h
      exact List.mem_cons_of_mem y (ih s x h)
    · rw [if_neg hk] at h
      rcases List.mem_cons.mp h with h1 | h2
      · exact h1 ▸ List.mem_cons_self y ys
      · exact List.mem_cons_of_mem y (ih _ x h2)

theorem dedupFirstBy_congr_seen {α κ : Type} [DecidableEq κ] (key : α → κ) :
    ∀ (l : List α) (s1 s2 : List κ),
      (∀ x ∈ l, key x ∈ s1 ↔ key x ∈ s2) →
      dedupFirstBy key s1 l = dedupFirstBy key s2 l := by
  intro l
  induction l with
  | nil => intro s1 s2 _; rfl
  | cons y ys ih =>
    intro s1 s2 h
    simp only [dedupFirstBy]
    by_cases hk : key y ∈ s1
    · rw [if_pos hk, if_pos ((h y (List.mem_cons_self y ys)).mp hk)]
      exact ih s1 s2 fun x hx => h x (List.mem_cons_of_mem y hx)
    · rw [if_neg hk, if_neg (fun hc => hk ((h y (List.mem_cons_self y ys)).mpr hc))]
      congr 1
      refine ih _ _ fun x hx => ?_
      constructor
      · intro hx1
        rcases List.mem_cons.mp hx1 with h1 | h1
        · exact h1 ▸ List.mem_cons_self _ _
        · exact List.mem_cons_of_mem _ ((h x (List.mem_cons_of_mem y hx)).mp h1)
      · intro hx2
        rcases List.mem_cons.mp hx2 with h1 | h1
        · exact h1 ▸ List.mem_cons_self _ _
        · exact List.mem_cons_of_mem _ ((h x (List.mem_cons_of_mem y hx)).mpr h1)

theorem dedupFirstBy_append_disjoint {α κ : Type} [DecidableEq κ] (key : α → κ) :
    ∀ (l1 l2 : List α) (s : List κ),
      (∀ y ∈ l2, key y ∉ s ∧ ∀ x ∈ l1, key y ≠ key x) →
      dedupFirstBy key s (l1 ++ l2) =
        dedupFirstBy key s l1 ++ dedupFirstBy key s l2 := by
  intro l1
  induction l1 with
  | nil => intro l2 s _; simp [dedupFirstBy]
  | cons x xs ih =>
    intro l2 s h
    rw [List.cons_append]
    simp only [dedupFirstBy]
    by_cases hk : key x ∈ s
    · rw [if_pos hk, if_pos hk]
      exact ih l2 s fun y hy =>
        ⟨(h y hy).1, fun x' hx' => (h y hy).2 x' (List.mem_cons_of_mem x hx')⟩
    · rw [if_neg hk, if_neg hk]
      rw [List.cons_append]
      congr 1
      have hstep := ih l2 (key x :: s) fun y hy =>
        ⟨by
          intro hc
          rcases List.mem_cons.mp hc with h1 | h1
          · exact (h y hy).2 x (List.mem_cons_self x xs) h1
          · exact (h y hy).1 h1,
         fun x' hx' => (h y hy).2 x' (List.mem_cons_of_mem x hx')⟩
      rw [hstep]
      congr 1
      exact dedupFirstBy_congr_seen key l2 (key x :: s) s fun y hy =>
        ⟨fun hc => by
          rcases List.mem_cons.mp hc with h1 | h1
          · exact absurd h1 ((h y hy).2 x (List.mem_cons_self x xs))
          · exact h1,
         fun hc => List.mem_cons_of_mem _ hc⟩

theorem dedupFirstBy_flatMap {α : Type} [DecidableEq (String × List String)]
    (key : α → String × List String) (nm : α → String)
    (hk : ∀ x y, key x = key y → nm x = nm y) :
    ∀ (ks : List String) (B : String → List α), ks.Nodup →
      (∀ k ∈ ks, ∀ x ∈ B k, nm x = k) →
      dedupFirstBy key [] (ks.flatMap B) =
        ks.flatMap fun k => dedupFirstBy key [] (B k) := by
  intro ks
  induction ks with
  | nil => intro B _ _; rfl
  | cons k ks ih =>
    intro B hnodup hhom
    rw [List.flatMap_cons]
    rw [dedupFirstBy_append_disjoint key (B k) (ks.flatMap B) []
      (fun y hy => by
        rcases List.mem_flatMap.mp hy with ⟨k', hk', hy'⟩
        refine ⟨by simp, fun x hx hkey => ?_⟩
        have h1 : nm y = k' := hhom k' (List.mem_cons_of_mem k hk') y hy'
        have h2 : nm x = k := hhom k (List.mem_cons_self k ks) x hx
        have := hk y x hkey
        rw [h1, h2] at this
        exact (List.nodup_cons.mp hnodup).1 (this ▸ hk'))]
    rw [List.flatMap_cons]
    congr 1
    exact ih B (List.nodup_cons.mp hnodup).2
      fun k' hk' x hx => hhom k' (List.mem_cons_of_mem k hk') x hx

theorem dedupFirstBy_keys {α κ : Type} [DecidableEq κ] (key : α → κ) :
    ∀ (l : List α) (s : List κ),
      (dedupFirstBy key s l).Pairwise (fun a b => key a ≠ key b) ∧
      ∀ x ∈ dedupFirstBy key s l, key x ∉ s := by
  intro l
  induction l with
  | nil => intro s; simp [dedupFirstBy]
  | cons y ys ih =>
    intro s
    simp only [dedupFirstBy]
    by_cases hk : key y ∈ s
    · rw [if_pos hk]; exact ih s
    · rw [if_neg hk]
      have ihs := ih (key y :: s)
      constructor
      · refine List.pairwise_cons.mpr ⟨fun b hb => ?_, ihs.1⟩
        intro hc
        exact ihs.2 b hb (hc ▸ List.mem_cons_self _ _)
      · intro x hx
        rcases List.mem_cons.mp hx with h1 | h1
        · exact h1 ▸ hk
        · intro hc
          exact ihs.2 x h1 (List.mem_cons_of_mem _ hc)

theorem dedupFirstBy_eq_self {α κ : Type} [DecidableEq κ] (key : α → κ) :
    ∀ (l : List α) (s : List κ),
      (∀ x ∈ l, key x ∉ s) →
      l.Pairwise (fun a b => key a ≠ key b) →
      dedupFirstBy key s l = l := by
  intro l
  induction l with
  | nil => intro s _ _; rfl
  | cons y ys ih =>
    intro s hs hp
    simp only [dedupFirstBy]
    rw [if_neg (hs y (List.mem_cons_self y ys))]
    congr 1
    refine ih (key y :: s) (fun x hx hc => ?_) (List.pairwise_cons.mp hp).2
    rcases List.mem_cons.mp hc with h1 | h1
    · exact (List.pairwise_cons.mp hp).1 x hx h1.symm
    · exact hs x (List.mem_cons_of_mem y hx) h1

theorem dedupFirstBy_idem {α κ : Type} [DecidableEq κ] (key : α → κ) (l : List α) :
    dedupFirstBy key [] (dedupFirstBy key [] l) = dedupFirstBy key [] l :=
  dedupFirstBy_eq_self key _ [] (by simp) (dedupFirstBy_keys key l []).1

theorem dedupFirstBy_exists_rep {α κ : Type} [DecidableEq κ] (key : α → κ) :
    ∀ (l : List α) (s : List κ) (x : α), x ∈ l →
      key x ∈ s ∨ ∃ y ∈ dedupFirstBy key s l, key y = key x := by
  intro l
  induction l with
  | nil => intro s x h; simp at h
  | cons z zs ih =>
    intro s x hx
    simp only [dedupFirstBy]
    by_cases hk : key z ∈ s
    · rw [if_pos hk]
      rcases List.mem_cons.mp hx with h1 | h1
      · exact Or.inl (h1 ▸ hk)
      · exact ih s x h1
    · rw [if_neg hk]
      rcases List.mem_cons.mp hx with h1 | h1
      · exact Or.inr ⟨z, List.mem_cons_self _ _, (h1 ▸ rfl)⟩
      · rcases ih (key z :: s) x h1 with h2 | ⟨y, hy, hky⟩
        · rcases List.mem_cons.mp h2 with h3 | h3
          · exact Or.inr ⟨z, List.mem_cons_self _ _, h3.symm⟩
          · exact Or.inl h3
        · exact Or.inr ⟨y, List.mem_cons_of_mem _ hy, hky⟩

theorem dedupFirstBy_ne_nil {α κ : Type} [DecidableEq κ] (key : α → κ)
    (l : List α) (h : l ≠ []) : dedupFirstBy key [] l ≠ [] := by
  cases l with
  | nil => exact absurd rfl h
  | cons x xs =>
    simp only [dedupFirstBy]
    rw [if_neg (by simp)]
    simp

theorem flatMap_singleton_id {α : Type} :
    ∀ (l : List α) (g : α → List α), (∀ x ∈ l, g x = [x]) → l.flatMap g = l := by
  intro l
  induction l with
  | nil => intro g _; rfl
  | cons x xs ih =>
    intro g h
    rw [List.flatMap_cons, h x (List.mem_cons_self x xs),
      ih g fun y hy => h y (List.mem_cons_of_mem x hy)]
    rfl

theorem flatMap_eq_filterMap {α β : Type} :
    ∀ (l : List α) (g : α → List β) (f : α → Option β),
      (∀ x ∈ l, g x = (f x).toList) → l.flatMap g = l.filterMap f := by
  intro l
  induction l with
  | nil => intro g f _; rfl
  | cons x xs ih =>
    intro g f h
    rw [List.flatMap_cons, List.filterMap_cons,
      ih g f fun y hy => h y (List.mem_cons_of_mem x hy), h x (List.mem_cons_self x xs)]
    cases f x <;> simp

theorem flatMap_congr_mem {α β : Type} :
    ∀ (l : List α) (f g : α → List β), (∀ x ∈ l, f x = g x) →
      l.flatMap f = l.flatMap g := by
  intro l
  induction l with
  | nil => intro f g _; rfl
  | cons x xs ih =>
    intro f g h
    rw [List.flatMap_cons, List.flatMap_cons, h x (List.mem_cons_self x xs),
      ih f g fun y hy => h y (List.mem_cons_of_mem x hy)]

theorem filter_flatMap_homog {α : Type} (nm : α → String) :
    ∀ (ks : List String) (B : String → List α) (k : String), ks.Nodup →
      (∀ k' ∈ ks, ∀ x ∈ B k', nm x = k') → k ∈ ks →
      (ks.flatMap B).filter (fun x => nm x == k) = B k := by
  intro ks
  induction ks with
  | nil => intro B k _ _ hk; simp at hk
  | cons k' ks ih =>
    intro B k hnodup hhom hk
    rw [List.flatMap_cons, List.filter_append]
    rcases List.mem_cons.mp hk with h1 | h1
    · subst h1
      have hB : (B k).filter (fun x => nm x == k) = B k :=
        List.filter_eq_self.mpr fun a ha => by
          simp [hhom k (List.mem_cons_self k ks) a ha]
      have hrest : (ks.flatMap B).filter (fun x => nm x == k) = [] := by
        apply List.filter_eq_nil_iff.mpr
        intro a ha
        rcases List.mem_flatMap.mp ha with ⟨k2, hk2, ha2⟩
        have := hhom k2 (List.mem_cons_of_mem k hk2) a ha2
        simp [this]
        intro hc
        exact (List.nodup_cons.mp hnodup).1 (hc ▸ hk2)
      rw [hB, hrest, List.append_nil]
    · have hB : (B k').filter (fun x => nm x == k) = [] := by
        apply List.filter_eq_nil_iff.mpr
        intro a ha
        have := hhom k' (List.mem_cons_self k' ks) a ha
        simp [this]
        intro hc
        exact (List.nodup_cons.mp hnodup).1 (hc ▸ h1)
      rw [hB, List.nil_append]
      exact ih B k (List.nodup_cons.mp hnodup).2
        (fun k2 hk2 x hx => hhom k2 (List.mem_cons_of_mem k' hk2) x hx) h1

theorem filterMap_eq_map_of {α β : Type} :
    ∀ (l : List α) (f : α → Option β) (g : α → β),
      (∀ x ∈ l, f x = some (g x)) → l.filterMap f = l.map g := by
  intro l
  induction l with
  | nil => intro f g _; rfl
  | cons x xs ih =>
    intro f g h
    rw [List.filterMap_cons, h x (List.mem_cons_self x xs), List.map_cons,
      ih f g fun y hy => h y (List.mem_cons_of_mem x hy)]

/-! ### Claim C8: construction validation -/

/-- Claim C8: construction fails with the validation error exactly when the
input is empty or all whitespace (its Python `strip` is empty), and no
partial object is created; on every other input construction delegates the
unmodified query and dialect to the AST provider. -/
theorem c8_construction_validation (query dialect : String) :
    (query_parser_init query dialect =
        InitResult.validationError "A SQL string is required" ↔
      py_strip query = "") ∧
    (py_strip query ≠ "" →
      query_parser_init query dialect = InitResult.delegated query dialect) := by
  have himp : query = "" → py_strip query = "" := fun h => by rw [h]; rfl
  constructor
  · constructor
    · intro h
      by_cases hs : py_strip query = ""
      · exact hs
      · exfalso
        have hq : ¬(query = "" ∨ py_strip query = "") := by
          rintro (h1 | h1)
          · exact hs (himp h1)
          · exact hs h1
        rw [query_parser_init, if_neg hq] at h
        exact InitResult.noConfusion h
    · intro h
      rw [query_parser_init, if_pos (Or.inr h)]
  · intro h
    have hq : ¬(query = "" ∨ py_strip query = "") := by
      rintro (h1 | h1)
      · exact h (himp h1)
      · exact h h1
    rw [query_parser_init, if_neg hq]

/-- Claim C8 witness: a concrete non-blank query delegates to the provider. -/
theorem c8_construction_validation_witness :
    query_parser_init "SELECT 1" "snowflake" =
      InitResult.delegated "SELECT 1" "snowflake" :=
  (c8_construction_validation "SELECT 1" "snowflake").2 (by decide)

/-! ### Claim C7: USING pairs -/

/-- Claim C7: for `L JOIN R USING (cols)` with named columns, exactly one
pair per listed column is emitted, `column_left` carrying the accumulated
left-side tables and `column_right` the right-side tables, with no
qualifier resolution (the routine consults no resolution state at all) and
independently of anything else in the statement. -/
theorem c7_using_pairs (sqlOf : Expr → String) (cols : List Expr)
    (left_sources right_sources : List String)
    (h : ∀ c ∈ cols, ∃ s, identifier_name sqlOf (some c) = some s ∧ s ≠ "") :
    columns_from_using sqlOf (some cols) left_sources right_sources =
      cols.map fun c =>
        JoinPair.mk
          (Column.mk ((identifier_name sqlOf (some c)).getD "") left_sources [])
          (Column.mk ((identifier_name sqlOf (some c)).getD "") right_sources [])
          none none := by
  cases cols with
  | nil => simp [columns_from_using]
  | cons c cs =>
    rw [columns_from_using]
    rw [if_neg (by simp)]
    apply filterMap_eq_map_of
    intro x hx
    rcases h x hx with ⟨s, hs, hne⟩
    rw [hs]
    simp only [Option.getD_some]
    rw [if_neg hne]

/-- Claim C7 witness: a concrete `USING (CONTACT_ID)` yields the symmetric
pair over the accumulated side tables. -/
theorem c7_using_pairs_witness :
    columns_from_using (fun _ => "") (some [Expr.ident "CONTACT_ID"])
        ["CRM.CONTACTS"] ["CRM.CONTACT_DETAILS"] =
      [JoinPair.mk (Column.mk "CONTACT_ID" ["CRM.CONTACTS"] [])
        (Column.mk "CONTACT_ID" ["CRM.CONTACT_DETAILS"] []) none none] := by
  rw [c7_using_pairs (fun _ => "") [Expr.ident "CONTACT_ID"]
    ["CRM.CONTACTS"] ["CRM.CONTACT_DETAILS"]
    (by
      intro c hc
      rcases List.mem_singleton.mp hc with rfl
      exact ⟨"CONTACT_ID", rfl, by decide⟩)]
  rfl

/-! ### Shared lemmas about the ambiguity filter -/

theorem mem_insertSorted (s : String) :
    ∀ (l : List String) (t : String), t ∈ insertSorted s l ↔ t = s ∨ t ∈ l := by
  intro l
  induction l with
  | nil => intro t; simp [insertSorted]
  | cons x xs ih =>
    intro t
    rw [insertSorted]
    by_cases h : strLe s x
    · rw [if_pos h]; simp
    · rw [if_neg h]
      simp only [List.mem_cons, ih]
      tauto

theorem mem_sortStrings :
    ∀ (l : List String) (t : String), t ∈ sortStrings l ↔ t ∈ l := by
  intro l
  induction l with
  | nil => intro t; simp [sortStrings]
  | cons x xs ih =>
    intro t
    rw [sortStrings, mem_insertSorted]
    simp [ih]

theorem mem_dedup_strings (l : List String) (t : String) :
    t ∈ dedupFirstBy (fun s => s) [] l ↔ t ∈ l := by
  constructor
  · exact mem_dedupFirstBy _ l [] t
  · intro h
    rcases dedupFirstBy_exists_rep (fun s => s) l [] t h with hbad | ⟨y, hy, hky⟩
    · simp at hbad
    · exact hky ▸ hy

theorem mem_sorted_dedup (l : List String) (t : String) :
    t ∈ sorted_dedup l ↔ t ∈ l := by
  rw [sorted_dedup, mem_sortStrings, mem_dedup_strings]

theorem sorted_dedup_ne_nil (l : List String) (h : l ≠ []) :
    sorted_dedup l ≠ [] := by
  rcases List.exists_mem_of_ne_nil l h with ⟨x, hx⟩
  exact List.ne_nil_of_mem ((mem_sorted_dedup l x).mpr hx)

/-- Let-free unfolding of `group_step`, convenient for case analysis. -/
theorem group_step_unfold (K : List String) (c : Column) :
    group_step K c =
      if c.potential_tables.length ≤ 1 then [c]
      else
        if (if c.potential_tables.filter (fun t => decide (t ∈ K)) ≠ []
            then sorted_dedup (c.potential_tables.filter fun t => decide (t ∈ K))
            else c.potential_tables).length > 1 ∧
           (if c.potential_tables.filter (fun t => decide (t ∈ K)) ≠ []
            then sorted_dedup (c.potential_tables.filter fun t => decide (t ∈ K))
            else c.potential_tables) ≠ [] ∧
           (∀ t ∈ (if c.potential_tables.filter (fun t => decide (t ∈ K)) ≠ []
                   then sorted_dedup (c.potential_tables.filter fun t => decide (t ∈ K))
                   else c.potential_tables), t ∈ K)
        then []
        else [Column.mk c.col_name
          (if c.potential_tables.filter (fun t => decide (t ∈ K)) ≠ []
           then sorted_dedup (c.potential_tables.filter fun t => decide (t ∈ K))
           else c.potential_tables) c.lineage] := rfl

/-- Branch lemma: instances with at most one candidate are kept as they
are. -/
theorem group_step_le (K : List String) (c : Column)
    (h : c.potential_tables.length ≤ 1) : group_step K c = [c] := by
  rw [group_step_unfold, if_pos h]

/-- Branch lemma: an ambiguous instance with no candidate among the
unambiguous tables is kept with its tables unchanged. -/
theorem group_step_noint (K : List String) (c : Column)
    (h1 : ¬c.potential_tables.length ≤ 1)
    (h2 : c.potential_tables.filter (fun t => decide (t ∈ K)) = []) :
    group_step K c = [Column.mk c.col_name c.potential_tables c.lineage] := by
  rw [group_step_unfold, if_neg h1, h2]
  have hno : ¬(([] : List String) ≠ []) := by simp
  rw [if_neg hno]
  refine if_neg ?_
  rintro ⟨hgt, hne, hall⟩
  rcases List.exists_mem_of_ne_nil _ hne with ⟨t, ht⟩
  have : t ∈ c.potential_tables.filter (fun t => decide (t ∈ K)) :=
    List.mem_filter.mpr ⟨ht, by simp [hall t ht]⟩
  rw [h2] at this
  simp at this

/-- Branch lemma: an ambiguous instance narrowed to more than one
unambiguous table is dropped. -/
theorem group_step_narrow_big (K : List String) (c : Column)
    (h1 : ¬c.potential_tables.length ≤ 1)
    (h2 : c.potential_tables.filter (fun t => decide (t ∈ K)) ≠ [])
    (h3 : 1 < (sorted_dedup
      (c.potential_tables.filter fun t => decide (t ∈ K))).length) :
    group_step K c = [] := by
  rw [group_step_unfold, if_neg h1, if_pos h2]
  refine if_pos ⟨h3, ?_, ?_⟩
  · intro hc
    rw [hc] at h3
    simp at h3
  · intro t ht
    have := (mem_sorted_dedup _ t).mp ht
    have := List.mem_filter.mp this
    simpa using this.2

/-- Branch lemma: an ambiguous instance narrowed to at most one unambiguous
table is kept with the narrowed tables. -/
theorem group_step_narrow_small (K : List String) (c : Column)
    (h1 : ¬c.potential_tables.length ≤ 1)
    (h2 : c.potential_tables.filter (fun t => decide (t ∈ K)) ≠ [])
    (h3 : ¬1 < (sorted_dedup
      (c.potential_tables.filter fun t => decide (t ∈ K))).length) :
    group_step K c =
      [Column.mk c.col_name
        (sorted_dedup (c.potential_tables.filter fun t => decide (t ∈ K)))
        c.lineage] := by
  rw [group_step_unfold, if_neg h1, if_pos h2]
  exact if_neg fun hc => h3 hc.1

theorem group_step_name (K : List String) (c : Column) :
    ∀ d ∈ group_step K c, d.col_name = c.col_name := by
  intro d hd
  by_cases h1 : c.potential_tables.length ≤ 1
  · rw [group_step_le K c h1] at hd
    rcases List.mem_singleton.mp hd with rfl
    rfl
  · by_cases h2 : c.potential_tables.filter (fun t => decide (t ∈ K)) = []
    · rw [group_step_noint K c h1 h2] at hd
      rcases List.mem_singleton.mp hd with rfl
      rfl
    · by_cases h3 : 1 < (sorted_dedup
          (c.potential_tables.filter fun t => decide (t ∈ K))).length
      · rw [group_step_narrow_big K c h1 h2 h3] at hd
        simp at hd
      · rw [group_step_narrow_small K c h1 h2 h3] at hd
        rcases List.mem_singleton.mp hd with rfl
        rfl

theorem group_entries_name (columns : List Column) (k : String) :
    ∀ c ∈ group_entries columns k, py_lower c.col_name = k := by
  intro c hc
  have := (List.mem_filter.mp hc).2
  simpa using this

theorem mem_group_entries (columns : List Column) (k : String) (c : Column)
    (hc : c ∈ columns) (hk : py_lower c.col_name = k) :
    c ∈ group_entries columns k :=
  List.mem_filter.mpr ⟨hc, by simp [hk]⟩

theorem block_name (columns : List Column) (k : String) :
    ∀ d ∈ (group_entries columns k).flatMap
        (group_step (unamb_tables (group_entries columns k))),
      py_lower d.col_name = k := by
  intro d hd
  rcases List.mem_flatMap.mp hd with ⟨c, hc, hd2⟩
  rw [group_step_name _ c d hd2]
  exact group_entries_name columns k c hc

theorem group_keys_nodup (columns : List Column) : (group_keys columns).Nodup := by
  have h := (dedupFirstBy_keys (fun s : String => s)
    (columns.map fun c => py_lower c.col_name) []).1
  rw [group_keys]
  exact List.Pairwise.imp (fun hne => hne) h

theorem mem_group_keys (columns : List Column) (c : Column) (hc : c ∈ columns) :
    py_lower c.col_name ∈ group_keys columns := by
  have hmem : py_lower c.col_name ∈ columns.map fun c => py_lower c.col_name :=
    List.mem_map.mpr ⟨c, hc, rfl⟩
  rcases dedupFirstBy_exists_rep (fun s : String => s) _ [] _ hmem with h | ⟨y, hy, hky⟩
  · simp at h
  · exact hky ▸ hy

theorem process_group_ne_nil (G : List Column) (hG : G ≠ []) :
    G.flatMap (group_step (unamb_tables G)) ≠ [] := by
  by_cases hex : ∃ c ∈ G, c.potential_tables.length ≤ 1
  · rcases hex with ⟨c, hc, hlen⟩
    apply List.ne_nil_of_mem (a := c)
    exact List.mem_flatMap.mpr ⟨c, hc,
      group_step_le _ c hlen ▸ List.mem_singleton.mpr rfl⟩
  · push_neg at hex
    have hU : unamb_tables G = [] := by
      rw [unamb_tables]
      apply List.filterMap_eq_nil_iff.mpr
      intro c hc
      have hlen := hex c hc
      cases hpt : c.potential_tables with
      | nil => simp
      | cons t ts =>
        cases ts with
        | nil => simp [hpt] at hlen
        | cons t2 ts2 => simp
    cases G with
    | nil => exact absurd rfl hG
    | cons c rest =>
      have hlen := hex c (List.mem_cons_self c rest)
      have hstep : group_step (unamb_tables (c :: rest)) c =
          [Column.mk c.col_name c.potential_tables c.lineage] := by
        rw [hU]
        exact group_step_noint [] c (by omega) (by simp)
      apply List.ne_nil_of_mem (a := Column.mk c.col_name c.potential_tables c.lineage)
      exact List.mem_flatMap.mpr ⟨c, List.mem_cons_self c rest,
        hstep ▸ List.mem_singleton.mpr rfl⟩

/-! ### Claim C9: the filter never erases a column name -/

/-- Claim C9: every distinct lowercase column name occurring in the input of
`filter_redundant_ambiguity` also occurs in its output: single-candidate
instances are always kept, and a group with no single-candidate instance has
an empty unambiguous-table set, so none of its members can be dropped. -/
theorem c9_names_preserved (columns : List Column) (k : String)
    (h : k ∈ columns.map fun c => py_lower c.col_name) :
    k ∈ (filter_redundant_ambiguity columns).map fun c => py_lower c.col_name := by
  rcases List.mem_map.mp h with ⟨c, hc, hk⟩
  have hkeys : k ∈ group_keys columns := hk ▸ mem_group_keys columns c hc
  have hGk : group_entries columns k ≠ [] :=
    List.ne_nil_of_mem (mem_group_entries columns k c hc hk)
  have hPk := process_group_ne_nil (group_entries columns k) hGk
  rcases List.exists_mem_of_ne_nil _ hPk with ⟨d, hd⟩
  have hdblock : d ∈ (group_keys columns).flatMap fun k2 =>
      (group_entries columns k2).flatMap
        (group_step (unamb_tables (group_entries columns k2))) :=
    List.mem_flatMap.mpr ⟨k, hkeys, hd⟩
  rcases dedupFirstBy_exists_rep ckey _ [] d hdblock with hbad | ⟨y, hy, hky⟩
  · simp at hbad
  · refine List.mem_map.mpr ⟨y, ?_, ?_⟩
    · rw [filter_redundant_ambiguity]
      exact hy
    · have : py_lower y.col_name = py_lower d.col_name := by
        have := congrArg Prod.fst hky
        simpa [ckey] using this
      rw [this]
      exact block_name columns k d hd

/-- Claim C9 witness: an ambiguous-only name survives the filter. -/
theorem c9_names_preserved_witness :
    "a" ∈ (filter_redundant_ambiguity
        [Column.mk "A" ["T1", "T2"] []]).map fun c => py_lower c.col_name :=
  c9_names_preserved [Column.mk "A" ["T1", "T2"] []] "a" (by decide)

/-! ### Claim C10: lineage table sets -/

theorem append_new_append (acc : List String) (a b : List String) :
    append_new acc (a ++ b) = append_new (append_new acc a) b := by
  rw [append_new, append_new, append_new, List.foldl_append]

theorem flatMap_leafSeq_reverse :
    ∀ l : List Column, l.reverse.flatMap leafSeq = leafSeqRev l := by
  intro l
  induction l with
  | nil => simp [leafSeqRev]
  | cons x xs ih =>
    rw [List.reverse_cons, List.flatMap_append, ih, List.flatMap_cons,
      List.flatMap_nil, List.append_nil, leafSeqRev]

theorem lineage_loop_spec :
    ∀ (stack : List Column) (known potential : List String),
      lineage_loop stack known potential =
        (append_new known (single_tables (stack.flatMap leafSeq)),
         append_new potential (multi_tables (stack.flatMap leafSeq))) := by
  intro stack known potential
  induction stack, known, potential using lineage_loop.induct with
  | case1 known potential =>
    rw [lineage_loop]
    simp [single_tables, multi_tables, append_new]
  | case2 c rest known potential hemp hpt ih =>
    rw [lineage_loop, if_pos hemp, hpt]
    rw [List.flatMap_cons, leafSeq, if_pos hemp]
    simp only [List.singleton_append, single_tables, multi_tables,
      List.filterMap_cons, List.flatMap_cons, hpt]
    exact ih
  | case3 c rest known potential hemp t hpt ih =>
    rw [lineage_loop, if_pos hemp, hpt]
    rw [List.flatMap_cons, leafSeq, if_pos hemp]
    simp only [List.singleton_append, single_tables, multi_tables,
      List.filterMap_cons, List.flatMap_cons, hpt]
    exact ih
  | case4 c rest known potential hemp h1 h2 ih =>
    rw [lineage_loop, if_pos hemp]
    rw [List.flatMap_cons, leafSeq, if_pos hemp]
    cases hpt : c.potential_tables with
    | nil => exact absurd hpt h1
    | cons t ts2 =>
      cases ts2 with
      | nil => exact absurd hpt (h2 t)
      | cons t2 ts3 =>
        rw [hpt] at ih
        simp only [dite_eq_ite] at ih
        simp only [List.singleton_append, single_tables, multi_tables,
          List.filterMap_cons, List.flatMap_cons, hpt]
        rw [append_new_append]
        exact ih
  | case5 c rest known potential hemp ih =>
    rw [lineage_loop, if_neg hemp]
    rw [List.flatMap_cons, leafSeq, if_neg hemp]
    rw [ih, ← flatMap_leafSeq_reverse, ← List.flatMap_append]

/-- Claim C10: `lineage_table_sets` flattens the lineage tree to its leaf
entries (in the stack traversal order `leafSeq`); every leaf with exactly
one candidate table contributes it to `known_tables`, every leaf with more
than one contributes all its tables to `potential_tables`, leaves with no
tables contribute nothing, both buckets are deduplicated in traversal order
and an empty bucket is reported as `none`. -/
theorem c10_lineage_table_sets (c : Column) :
    lineage_table_sets c =
      ((if append_new [] (single_tables (leafSeq c)) = [] then none
        else some (append_new [] (single_tables (leafSeq c)))),
       (if append_new [] (multi_tables (leafSeq c)) = [] then none
        else some (append_new [] (multi_tables (leafSeq c))))) := by
  have h := lineage_loop_spec [c] [] []
  rw [List.flatMap_cons, List.flatMap_nil, List.append_nil] at h
  rw [lineage_table_sets, h]

/-! ### Claim C5: lineage leaf flattening -/

theorem normalize_append :
    ∀ a b : List Column,
      normalize_lineage_entries (a ++ b) =
        normalize_lineage_entries a ++ normalize_lineage_entries b := by
  intro a
  induction a with
  | nil => intro b; simp [normalize_lineage_entries]
  | cons c cs ih =>
    intro b
    cases c with
    | mk n t sub =>
      rw [List.cons_append]
      simp only [normalize_lineage_entries]
      by_cases hn : n = ""
      · rw [if_pos hn, if_pos hn, ih, List.append_assoc]
      · rw [if_neg hn, if_neg hn, ih, List.cons_append]

theorem normalize_nil_iff :
    ∀ l : List Column,
      (normalize_lineage_entries l = [] ↔ allVacuous l = true) := by
  intro l
  induction l using normalize_lineage_entries.induct with
  | case1 => simp [normalize_lineage_entries, allVacuous]
  | case2 t sub rest ih2 ih1 =>
    simp only [normalize_lineage_entries, if_true]
    rw [List.append_eq_nil]
    rw [ih2, ih1]
    simp [allVacuous, vacuousC]
  | case3 n t sub rest hn ih2 ih1 =>
    simp only [normalize_lineage_entries]
    rw [if_neg hn]
    simp [allVacuous, vacuousC, hn]

theorem normalize_entries_idem :
    ∀ l : List Column,
      normalize_lineage_entries (normalize_lineage_entries l) =
        normalize_lineage_entries l := by
  intro l
  induction l using normalize_lineage_entries.induct with
  | case1 => simp [normalize_lineage_entries]
  | case2 t sub rest ih2 ih1 =>
    simp only [normalize_lineage_entries, if_true]
    rw [normalize_append, ih2, ih1]
  | case3 n t sub rest hn ih2 ih1 =>
    simp only [normalize_lineage_entries]
    rw [if_neg hn]
    simp only [normalize_lineage_entries]
    rw [if_neg hn, ih2, ih1]

theorem allVacuous_spec_nil :
    ∀ l : List Column, allVacuous l = true → spec_leaf_entries l = [] := by
  intro l
  induction l using spec_leaf_entries.induct with
  | case1 => intro _; simp [spec_leaf_entries]
  | case2 n t sub rest ih2 ih1 =>
    intro hv
    rw [allVacuous, Bool.and_eq_true] at hv
    rw [vacuousC, Bool.and_eq_true] at hv
    rw [spec_leaf_entries]
    rw [if_pos hv.1.2]
    have hn : n = "" := by simpa using hv.1.1
    rw [if_neg (by simp [hn])]
    rw [ih1 hv.2]
    simp

theorem leaf_entries_go (m : List Column) :
    lineage_leaf_go (normalize_lineage_entries m) = lineage_leaf_entries m := by
  simp only [lineage_leaf_entries]

theorem leaf_go_append :
    ∀ a b : List Column,
      lineage_leaf_go (a ++ b) = lineage_leaf_go a ++ lineage_leaf_go b := by
  intro a
  induction a with
  | nil => intro b; simp [lineage_leaf_go]
  | cons c cs ih =>
    intro b
    cases c with
    | mk n t sub =>
      rw [List.cons_append]
      simp only [lineage_leaf_go]
      rw [ih, List.append_assoc]

/-- Claim C5 (amended form): the flattened leaves are exactly the entries
whose lineage consists only of vacuous entries and that carry a non-empty
name and a non-empty table list, however deep the nesting; in particular
every returned leaf has a non-empty name and non-empty tables. -/
theorem c5_leaf_flattening (entries : List Column) :
    lineage_leaf_entries entries = spec_leaf_entries entries := by
  induction entries using normalize_lineage_entries.induct with
  | case1 =>
    rw [← leaf_entries_go]
    simp [normalize_lineage_entries, lineage_leaf_go, spec_leaf_entries]
  | case2 t sub rest ih2 ih1 =>
    rw [← leaf_entries_go]
    simp only [normalize_lineage_entries, if_true]
    rw [leaf_go_append, leaf_entries_go, leaf_entries_go, ih2, ih1]
    rw [spec_leaf_entries]
    by_cases hv : allVacuous sub
    · rw [if_pos hv, allVacuous_spec_nil sub hv]
      simp
    · rw [if_neg hv]
  | case3 n t sub rest hn ih2 ih1 =>
    rw [← leaf_entries_go]
    simp only [normalize_lineage_entries]
    rw [if_neg hn]
    simp only [lineage_leaf_go]
    rw [leaf_entries_go, ih1]
    rw [spec_leaf_entries]
    by_cases hv : allVacuous sub
    · have hnil : normalize_lineage_entries sub = [] := (normalize_nil_iff sub).mpr hv
      rw [hnil, if_pos hv]
      simp
    · have hnil : normalize_lineage_entries sub ≠ [] :=
        fun hc => hv ((normalize_nil_iff sub).mp hc)
      rw [if_neg hv]
      have hie : (normalize_lineage_entries sub).isEmpty = false := by
        cases hc : normalize_lineage_entries sub with
        | nil => exact absurd hc hnil
        | cons _ _ => simp
      rw [hie]
      simp only [Bool.false_eq_true, if_false]
      have : lineage_leaf_entries (normalize_lineage_entries sub) =
          lineage_leaf_entries sub := by
        rw [← leaf_entries_go, normalize_entries_idem, leaf_entries_go]
      rw [this, ih2]

/-- Claim C5 counterexample: an entry whose lineage is non-empty but
normalizes away (a nested entry with empty name, no tables and no deeper
lineage) is returned by `lineage_leaf_entries` even though it carries
further lineage, so the flattening does not return "exactly the entries
that carry no further lineage" in the literal sense
(`claim_leaf_entries`). -/
theorem c5_counterexample :
    lineage_leaf_entries [Column.mk "x" ["T"] [Column.mk "" [] []]] =
        [("x", ["T"])] ∧
      claim_leaf_entries [Column.mk "x" ["T"] [Column.mk "" [] []]] = [] ∧
      (Column.mk "x" ["T"] [Column.mk "" [] []]).lineage ≠ [] := by
  refine ⟨?_, ?_, by simp [Column.lineage]⟩
  · rw [← leaf_entries_go]
    simp [normalize_lineage_entries, lineage_leaf_go]
  · simp [claim_leaf_entries]

/-! ### Claim C2: the ambiguity filter -/

/-- Let-free unfolding of `classify_amended`. -/
theorem classify_amended_unfold (K : List String) (c : Column) :
    classify_amended K c =
      if c.potential_tables.length ≤ 1 then some c
      else
        if (if c.potential_tables.filter (fun t => decide (t ∈ K)) ≠ []
            then sorted_dedup (c.potential_tables.filter fun t => decide (t ∈ K))
            else c.potential_tables).length > 1 ∧
           (∀ t ∈ (if c.potential_tables.filter (fun t => decide (t ∈ K)) ≠ []
                   then sorted_dedup (c.potential_tables.filter fun t => decide (t ∈ K))
                   else c.potential_tables), t ∈ K)
        then none
        else some (Column.mk c.col_name
          (if c.potential_tables.filter (fun t => decide (t ∈ K)) ≠ []
           then sorted_dedup (c.potential_tables.filter fun t => decide (t ∈ K))
           else c.potential_tables) c.lineage) := rfl

/-- The loop body of the source filter agrees with the amended claim's
per-instance classification. -/
theorem group_step_toList (K : List String) (c : Column) :
    group_step K c = (classify_amended K c).toList := by
  by_cases h1 : c.potential_tables.length ≤ 1
  · rw [group_step_le K c h1, classify_amended_unfold, if_pos h1]
    rfl
  · by_cases h2 : c.potential_tables.filter (fun t => decide (t ∈ K)) = []
    · rw [group_step_noint K c h1 h2, classify_amended_unfold, if_neg h1, h2]
      have hno : ¬(([] : List String) ≠ []) := by simp
      rw [if_neg hno]
      rw [if_neg ?hdrop]
      case hdrop =>
        rintro ⟨hgt, hall⟩
        have hne : c.potential_tables ≠ [] := by
          intro hc
          rw [hc] at hgt
          simp at hgt
        rcases List.exists_mem_of_ne_nil _ hne with ⟨t, ht⟩
        have : t ∈ c.potential_tables.filter (fun t => decide (t ∈ K)) :=
          List.mem_filter.mpr ⟨ht, by simp [hall t ht]⟩
        rw [h2] at this
        simp at this
      rfl
    · by_cases h3 : 1 < (sorted_dedup
          (c.potential_tables.filter fun t => decide (t ∈ K))).length
      · have hall : ∀ t ∈ sorted_dedup
            (c.potential_tables.filter fun t => decide (t ∈ K)), t ∈ K := by
          intro t ht
          have := List.mem_filter.mp ((mem_sorted_dedup _ t).mp ht)
          simpa using this.2
        rw [group_step_narrow_big K c h1 h2 h3, classify_amended_unfold,
          if_neg h1, if_pos h2, if_pos ⟨h3, hall⟩]
        rfl
      · rw [group_step_narrow_small K c h1 h2 h3, classify_amended_unfold,
          if_neg h1, if_pos h2]
        rw [if_neg fun hc => h3 hc.1]
        rfl

/-- Claim C2 (amended form): the filter groups by lowercase name; an
instance with at most one candidate is kept; an ambiguous instance whose
candidates intersect the group's unambiguous tables is narrowed to the
sorted, deduplicated intersection; a narrowed instance is dropped exactly
when it still has more than one candidate, all of them unambiguous tables;
and the result is deduplicated by `(lowercase name, table tuple as
stored)`, keeping first occurrences. -/
theorem c2_ambiguity_filter (columns : List Column) :
    filter_redundant_ambiguity columns = spec_filter_amended columns := by
  rw [filter_redundant_ambiguity, spec_filter_amended]
  congr 1
  apply flatMap_congr_mem
  intro k _
  show (group_entries columns k).flatMap
      (group_step (unamb_tables (group_entries columns k))) =
    (group_entries columns k).filterMap
      (classify_amended (unamb_tables (group_entries columns k)))
  apply flatMap_eq_filterMap
  intro c _
  exact group_step_toList _ c

/-- Claim C2 counterexample: the claim as stated differs from the code on
two concrete inputs.  First, a narrowed instance left with exactly one
(unambiguous) candidate is kept by the code (the claim's drop rule, read
without the `more than one` guard, drops it), observable through the kept
casing `"A"` versus the sibling's `"a"`.  Second, the code's final dedup
key uses the stored table tuple, not a sorted one, so two same-named
instances with the same tables in different order both survive, while the
claim's `(name, sorted table tuple)` dedup merges them. -/
theorem c2_counterexample :
    ((filter_redundant_ambiguity
        [Column.mk "A" ["T1", "T2"] [], Column.mk "a" ["T1"] []]).map
          Column.col_name = ["A"] ∧
      (spec_filter_claim
        [Column.mk "A" ["T1", "T2"] [], Column.mk "a" ["T1"] []]).map
          Column.col_name = ["a"]) ∧
    ((filter_redundant_ambiguity
        [Column.mk "a" ["T1", "T2"] [], Column.mk "a" ["T2", "T1"] []]).length = 2 ∧
      (spec_filter_claim
        [Column.mk "a" ["T1", "T2"] [], Column.mk "a" ["T2", "T1"] []]).length = 1) := by
  refine ⟨⟨?_, ?_⟩, ?_, ?_⟩ <;> rfl

/-! ### Claim C3: idempotence of the ambiguity filter -/

theorem dedup_all_seen {α κ : Type} [DecidableEq κ] (key : α → κ) :
    ∀ (l : List α) (seen : List κ), (∀ x ∈ l, key x ∈ seen) →
      dedupFirstBy key seen l = [] := by
  intro l
  induction l with
  | nil => intro seen _; rfl
  | cons x xs ih =>
    intro seen h
    rw [dedupFirstBy, if_pos (h x (List.mem_cons_self x xs))]
    exact ih seen fun y hy => h y (List.mem_cons_of_mem x hy)

theorem dedup_const_nonempty (m : List String) (k : String)
    (hconst : ∀ s ∈ m, s = k) (hne : m ≠ []) :
    dedupFirstBy (fun s => s) [] m = [k] := by
  cases m with
  | nil => exact absurd rfl hne
  | cons x xs =>
    have hx : x = k := hconst x (List.mem_cons_self x xs)
    rw [dedupFirstBy, if_neg (by simp)]
    rw [dedup_all_seen (fun s => s) xs [x] fun y hy => by
      rw [hconst y (List.mem_cons_of_mem x hy), hx]
      simp [hx]]
    rw [hx]

theorem dedup_names_const :
    ∀ (ks : List String) (ns : String → List String), ks.Nodup →
      (∀ k ∈ ks, ns k ≠ [] ∧ ∀ s ∈ ns k, s = k) →
      dedupFirstBy (fun s => s) [] (ks.flatMap ns) = ks := by
  intro ks
  induction ks with
  | nil => intro ns _ _; rfl
  | cons k ks ih =>
    intro ns hnodup h
    rw [List.flatMap_cons]
    rw [dedupFirstBy_append_disjoint (fun s => s) (ns k) (ks.flatMap ns) []
      (fun y hy => by
        rcases List.mem_flatMap.mp hy with ⟨k2, hk2, hy2⟩
        refine ⟨by simp, fun x hx => ?_⟩
        rw [(h k2 (List.mem_cons_of_mem k hk2)).2 y hy2,
          (h k (List.mem_cons_self k ks)).2 x hx]
        intro hc
        exact (List.nodup_cons.mp hnodup).1
          ((show k2 = k from hc) ▸ hk2))]
    rw [dedup_const_nonempty (ns k) k (h k (List.mem_cons_self k ks)).2
      (h k (List.mem_cons_self k ks)).1]
    rw [ih ns (List.nodup_cons.mp hnodup).2
      fun k2 hk2 => h k2 (List.mem_cons_of_mem k hk2)]
    rfl

theorem unamb_mem_iff (E : List Column) (t : String) :
    t ∈ unamb_tables E ↔ ∃ d ∈ E, d.potential_tables = [t] := by
  rw [unamb_tables]
  constructor
  · intro h
    rcases List.mem_filterMap.mp h with ⟨d, hd, hmatch⟩
    refine ⟨d, hd, ?_⟩
    cases hpt : d.potential_tables with
    | nil => rw [hpt] at hmatch; simp at hmatch
    | cons a as =>
      cases as with
      | nil =>
        rw [hpt] at hmatch
        simp at hmatch
        rw [hmatch]
      | cons b bs => rw [hpt] at hmatch; simp at hmatch
  · rintro ⟨d, hd, hpt⟩
    exact List.mem_filterMap.mpr ⟨d, hd, by rw [hpt]⟩

theorem group_step_shape (K : List String) (G : List Column) :
    ∀ d ∈ G.flatMap (group_step K),
      d.potential_tables.length ≤ 1 ∨
        (1 < d.potential_tables.length ∧ ∀ t ∈ d.potential_tables, t ∉ K) := by
  intro d hd
  rcases List.mem_flatMap.mp hd with ⟨c, hc, hstep⟩
  by_cases h1 : c.potential_tables.length ≤ 1
  · rw [group_step_le K c h1] at hstep
    rcases List.mem_singleton.mp hstep with rfl
    exact Or.inl h1
  · by_cases h2 : c.potential_tables.filter (fun t => decide (t ∈ K)) = []
    · rw [group_step_noint K c h1 h2] at hstep
      rcases List.mem_singleton.mp hstep with rfl
      refine Or.inr ⟨?_, ?_⟩
      · show 1 < c.potential_tables.length
        omega
      · show ∀ t ∈ c.potential_tables, t ∉ K
        intro t ht hmem
        have hmemf : t ∈ c.potential_tables.filter (fun t => decide (t ∈ K)) :=
          List.mem_filter.mpr ⟨ht, by simp [hmem]⟩
        rw [h2] at hmemf
        simp at hmemf
    · by_cases h3 : 1 < (sorted_dedup
          (c.potential_tables.filter fun t => decide (t ∈ K))).length
      · rw [group_step_narrow_big K c h1 h2 h3] at hstep
        simp at hstep
      · rw [group_step_narrow_small K c h1 h2 h3] at hstep
        rcases List.mem_singleton.mp hstep with rfl
        left
        show (sorted_dedup _).length ≤ 1
        omega

theorem process_singleton (K : List String) (G : List Column) :
    ∀ d ∈ G.flatMap (group_step K), ∀ t, d.potential_tables = [t] →
      t ∈ K ∨ ∃ c ∈ G, c.potential_tables = [t] := by
  intro d hd t hpt
  rcases List.mem_flatMap.mp hd with ⟨c, hc, hstep⟩
  by_cases h1 : c.potential_tables.length ≤ 1
  · rw [group_step_le K c h1] at hstep
    rcases List.mem_singleton.mp hstep with rfl
    exact Or.inr ⟨_, hc, hpt⟩
  · by_cases h2 : c.potential_tables.filter (fun t => decide (t ∈ K)) = []
    · rw [group_step_noint K c h1 h2] at hstep
      rcases List.mem_singleton.mp hstep with rfl
      exfalso
      apply h1
      have : c.potential_tables = [t] := hpt
      rw [this]
      simp
    · by_cases h3 : 1 < (sorted_dedup
          (c.potential_tables.filter fun t => decide (t ∈ K))).length
      · rw [group_step_narrow_big K c h1 h2 h3] at hstep
        simp at hstep
      · rw [group_step_narrow_small K c h1 h2 h3] at hstep
        rcases List.mem_singleton.mp hstep with rfl
        left
        have hsd : sorted_dedup
            (c.potential_tables.filter fun t => decide (t ∈ K)) = [t] := hpt
        have : t ∈ sorted_dedup
            (c.potential_tables.filter fun t => decide (t ∈ K)) := by
          rw [hsd]; simp
        have := List.mem_filter.mp ((mem_sorted_dedup _ t).mp this)
        simpa using this.2

theorem unamb_dedup_process (G : List Column) (t : String) :
    t ∈ unamb_tables (dedupFirstBy ckey []
        (G.flatMap (group_step (unamb_tables G)))) ↔
      t ∈ unamb_tables G := by
  constructor
  · intro h
    rcases (unamb_mem_iff _ t).mp h with ⟨d, hd, hpt⟩
    have hdP := mem_dedupFirstBy ckey _ [] d hd
    rcases process_singleton (unamb_tables G) G d hdP t hpt with h1 | ⟨c, hc, hcpt⟩
    · exact h1
    · exact (unamb_mem_iff G t).mpr ⟨c, hc, hcpt⟩
  · intro h
    rcases (unamb_mem_iff G t).mp h with ⟨c, hc, hpt⟩
    have hle : c.potential_tables.length ≤ 1 := by rw [hpt]; simp
    have hcP : c ∈ G.flatMap (group_step (unamb_tables G)) :=
      List.mem_flatMap.mpr ⟨c, hc,
        group_step_le _ c hle ▸ List.mem_singleton.mpr rfl⟩
    rcases dedupFirstBy_exists_rep ckey _ [] c hcP with hbad | ⟨y, hy, hky⟩
    · simp at hbad
    · refine (unamb_mem_iff _ t).mpr ⟨y, hy, ?_⟩
      have hsnd : y.potential_tables = c.potential_tables := by
        have := congrArg Prod.snd hky
        simpa [ckey] using this
      rw [hsnd, hpt]

theorem process_fixpoint (G : List Column) :
    ∀ d ∈ dedupFirstBy ckey [] (G.flatMap (group_step (unamb_tables G))),
      group_step (unamb_tables (dedupFirstBy ckey []
        (G.flatMap (group_step (unamb_tables G))))) d = [d] := by
  intro d hd
  have hdP := mem_dedupFirstBy ckey _ [] d hd
  rcases group_step_shape (unamb_tables G) G d hdP with h1 | ⟨hgt, hdisj⟩
  · exact group_step_le _ d h1
  · have h1 : ¬d.potential_tables.length ≤ 1 := by omega
    have h2 : d.potential_tables.filter (fun t => decide (t ∈ unamb_tables
        (dedupFirstBy ckey [] (G.flatMap (group_step (unamb_tables G)))))) = [] := by
      apply List.filter_eq_nil_iff.mpr
      intro t ht
      simp only [decide_eq_true_eq]
      intro hmem
      exact hdisj t ht ((unamb_dedup_process G t).mp hmem)
    rw [group_step_noint _ d h1 h2]
    cases d with
    | mk n p li => rfl

theorem filter_eq_flatMap (columns : List Column) :
    filter_redundant_ambiguity columns =
      (group_keys columns).flatMap fun k =>
        dedupFirstBy ckey [] ((group_entries columns k).flatMap
          (group_step (unamb_tables (group_entries columns k)))) := by
  rw [filter_redundant_ambiguity]
  exact dedupFirstBy_flatMap ckey (fun c => py_lower c.col_name)
    (fun x y h => by simpa [ckey] using congrArg Prod.fst h)
    (group_keys columns) _ (group_keys_nodup columns)
    (fun k hk d hd => block_name columns k d hd)

theorem group_entries_ne_nil (columns : List Column) (k : String)
    (hk : k ∈ group_keys columns) : group_entries columns k ≠ [] := by
  rw [group_keys] at hk
  have hmem := (mem_dedup_strings _ k).mp hk
  rcases List.mem_map.mp hmem with ⟨c, hc, hlow⟩
  exact List.ne_nil_of_mem (mem_group_entries columns k c hc hlow)

theorem group_keys_filter (columns : List Column) :
    group_keys (filter_redundant_ambiguity columns) = group_keys columns := by
  rw [filter_eq_flatMap]
  rw [group_keys, List.map_flatMap]
  apply dedup_names_const _ _ (group_keys_nodup columns)
  intro k hk
  constructor
  · have hGk := group_entries_ne_nil columns k hk
    have hPk := process_group_ne_nil _ hGk
    have hDk := dedupFirstBy_ne_nil ckey _ hPk
    intro hc
    exact hDk (List.map_eq_nil_iff.mp hc)
  · intro s hs
    rcases List.mem_map.mp hs with ⟨d, hd, rfl⟩
    exact block_name columns k d (mem_dedupFirstBy ckey _ [] d hd)

theorem group_entries_filter (columns : List Column) (k : String)
    (hk : k ∈ group_keys columns) :
    group_entries (filter_redundant_ambiguity columns) k =
      dedupFirstBy ckey [] ((group_entries columns k).flatMap
        (group_step (unamb_tables (group_entries columns k)))) := by
  rw [filter_eq_flatMap, group_entries]
  exact filter_flatMap_homog (fun c => py_lower c.col_name)
    (group_keys columns) _ k (group_keys_nodup columns)
    (fun k2 hk2 d hd => block_name columns k2 d (mem_dedupFirstBy ckey _ [] d hd))
    hk

/-- Claim C3: the ambiguity filter is idempotent; applying
`filter_redundant_ambiguity` to its own output returns that output
unchanged. -/
theorem c3_filter_idempotent (columns : List Column) :
    filter_redundant_ambiguity (filter_redundant_ambiguity columns) =
      filter_redundant_ambiguity columns := by
  have hmain : filter_redundant_ambiguity (filter_redundant_ambiguity columns) =
      dedupFirstBy ckey [] ((group_keys columns).flatMap fun k =>
        dedupFirstBy ckey [] ((group_entries columns k).flatMap
          (group_step (unamb_tables (group_entries columns k))))) := by
    conv_lhs => rw [filter_redundant_ambiguity]
    rw [group_keys_filter]
    congr 1
    apply flatMap_congr_mem
    intro k hk
    show (group_entries (filter_redundant_ambiguity columns) k).flatMap
        (group_step (unamb_tables
          (group_entries (filter_redundant_ambiguity columns) k))) = _
    rw [group_entries_filter columns k hk]
    exact flatMap_singleton_id _ _ (process_fixpoint (group_entries columns k))
  rw [hmain]
  rw [dedupFirstBy_flatMap ckey (fun c => py_lower c.col_name)
    (fun x y h => by simpa [ckey] using congrArg Prod.fst h)
    (group_keys columns) _ (group_keys_nodup columns)
    (fun k hk d hd => block_name columns k d (mem_dedupFirstBy ckey _ [] d hd))]
  rw [flatMap_congr_mem _ _ _ fun k _ => dedupFirstBy_idem ckey _]
  rw [← filter_eq_flatMap]

/-! ### Claim C6: non-column join operands -/

/-- Claim C6 (amended form): for an operand that is not a bare column
reference, the operand's re-serialized text is always captured as the
complex text, and the representative Column is the resolution of the first
(breadth-first) column reference of the subtree; when no such reference
exists (or it has no name), the synthesized placeholder is a Column whose
name is the re-serialized text — not an empty name — carrying no tables. -/
theorem c6_complex_operand (g : GlobalMaps) (sqlOf : Expr → String) (e : Expr)
    (sctx : Option SelectContext) (h : isColExpr e = false) :
    extract_join_operand g sqlOf (some e) sctx =
      (some (match column_from_expression g (firstColumnBFS [e]) sctx with
             | some c => c
             | none => Column.mk (sqlOf e) [] []),
       some (sqlOf e)) := by
  cases hn : firstColumnBFS [e] with
  | none => simp [extract_join_operand, h, hn, column_from_expression]
  | some ce =>
    cases hc : column_from_expression g (some ce) sctx with
    | none => simp [extract_join_operand, h, hn, hc]
    | some c => simp [extract_join_operand, h, hn, hc]

/-- Claim C6 witness: a literal operand with no column inside yields the
serialized text as both complex text and placeholder column name. -/
theorem c6_complex_operand_witness :
    extract_join_operand ⟨[], [], []⟩ (fun _ => "5")
        (some (Expr.node "Literal" [])) none =
      (some (Column.mk "5" [] []), some "5") := by
  rw [c6_complex_operand ⟨[], [], []⟩ (fun _ => "5") (Expr.node "Literal" []) none rfl]
  simp [firstColumnBFS, exprChildren, isColExpr, column_from_expression]

/-- Claim C6 counterexample: on a column-free operand the synthesized
Column's name is the re-serialized text `"5"`, which is not empty, so the
claim's "empty-name Column" is false as stated (the empty-name placeholder
arises only for a missing operand expression, in
`columns_from_condition`). -/
theorem c6_counterexample :
    extract_join_operand ⟨[], [], []⟩ (fun _ => "5")
        (some (Expr.node "Literal" [])) none =
      (some (Column.mk "5" [] []), some "5") ∧
    (Column.mk "5" [] []).col_name ≠ "" := by
  constructor
  · simp [extract_join_operand, firstColumnBFS, exprChildren, isColExpr,
      column_from_expression]
  · simp [Column.col_name]

/-! ### Claim C4: qualified column resolution never fails -/

/-- Claim C4: with a truthy qualifier, resolution always succeeds: if a
relation matches the qualifier case-insensitively (the code answers from
the first such relation), a declared column yields that entry's tables and
an undeclared column yields the relation's whole table set; with no
matching relation the global alias map is consulted under the as-written,
lowercase and uppercase variants of the qualifier, and if that also fails
the qualifier itself is returned as a literal pseudo-table. -/
theorem c4_qualified_resolution (g : GlobalMaps) (ctx : SelectContext)
    (q : String) (column_name : Option String) (hq : q ≠ "") :
    (∀ relation rest,
        relations_for_qualifier ctx.relations (some q) = relation :: rest →
        (∀ k ts, column_key_of column_name = some k →
            alookup relation.columns k = some ts →
            resolve_column_sources g (some q) (some ctx) column_name = ts) ∧
        ((column_key_of column_name).bind
            (fun k => alookup relation.columns k) = none →
          resolve_column_sources g (some q) (some ctx) column_name =
            relation.tables)) ∧
    (relations_for_qualifier ctx.relations (some q) = [] →
        (∀ resolved,
            alias_variant_lookup g (column_key_of column_name)
              [q, py_lower q, py_upper q] = some resolved →
            resolve_column_sources g (some q) (some ctx) column_name =
              resolved) ∧
        (alias_variant_lookup g (column_key_of column_name)
            [q, py_lower q, py_upper q] = none →
          resolve_column_sources g (some q) (some ctx) column_name = [q])) := by
  constructor
  · intro relation rest hrel
    constructor
    · intro k ts hk hts
      simp only [resolve_column_sources, if_neg hq, hrel, hk, hts]
    · intro hnone
      cases hck : column_key_of column_name with
      | none => simp only [resolve_column_sources, if_neg hq, hrel, hck]
      | some k =>
        have hlk : alookup relation.columns k = none := by
          rw [hck] at hnone
          simpa using hnone
        simp only [resolve_column_sources, if_neg hq, hrel, hck, hlk]
  · intro hrel
    constructor
    · intro resolved hres
      simp only [resolve_column_sources, if_neg hq, hrel, hres]
    · intro hnone
      simp only [resolve_column_sources, if_neg hq, hrel, hnone]

/-- Claim C4 witness: a matching relation declaring the column yields the
entry's tables on a concrete context. -/
theorem c4_qualified_resolution_witness :
    resolve_column_sources ⟨[], [], []⟩ (some "t")
        (some ⟨none, [⟨some "T", ["TBL"], [("c", ["TBL"])]⟩]⟩) (some "c") =
      ["TBL"] :=
  ((c4_qualified_resolution ⟨[], [], []⟩
      ⟨none, [⟨some "T", ["TBL"], [("c", ["TBL"])]⟩]⟩ "t" (some "c")
      (by decide)).1
    ⟨some "T", ["TBL"], [("c", ["TBL"])]⟩ [] rfl).1 "c" ["TBL"] rfl rfl

/-! ### Claim C1: join orientation repair -/

/-- Claim C1 (amended form): for an ON comparator whose operands both
resolve to Columns, the pair is swapped — Columns and complex texts
together — exactly when the left operand's tables miss the accumulated
left-side set while the right operand's hit it, or the right operand's
tables miss the right-side set while the left operand's hit it;
consequently the reported `column_left` intersects the left-side set
whenever the right operand's tables intersect the left set or the operands
are already correctly oriented (left hits left and right hits right).  When
neither operand's tables meet the relevant sets the parsed orientation is
kept and `column_left` may miss the left set. -/
theorem c1_join_orientation (g : GlobalMaps) (sqlOf : Expr → String)
    (left_sources right_sources : List String) (comparator : Expr)
    (lc rc : Column) (cl cr : Option String)
    (h1 : extract_join_operand g sqlOf (argThis comparator) none = (some lc, cl))
    (h2 : extract_join_operand g sqlOf (argExpression comparator) none =
      (some rc, cr)) :
    (pair_from_comparator g sqlOf left_sources right_sources comparator =
      if (!(lc.potential_tables.any fun t => decide (t ∈ left_sources)) &&
            (rc.potential_tables.any fun t => decide (t ∈ left_sources))) ||
         (!(rc.potential_tables.any fun t => decide (t ∈ right_sources)) &&
            (lc.potential_tables.any fun t => decide (t ∈ right_sources)))
      then JoinPair.mk rc lc cr cl
      else JoinPair.mk lc rc cl cr) ∧
    (((rc.potential_tables.any fun t => decide (t ∈ left_sources)) = true ∨
        ((lc.potential_tables.any fun t => decide (t ∈ left_sources)) = true ∧
         (rc.potential_tables.any fun t => decide (t ∈ right_sources)) = true)) →
      ((pair_from_comparator g sqlOf left_sources right_sources
          comparator).column_left.potential_tables.any
        fun t => decide (t ∈ left_sources)) = true) := by
  cases hll : (lc.potential_tables.any fun t => decide (t ∈ left_sources)) <;>
    cases hrl : (rc.potential_tables.any fun t => decide (t ∈ left_sources)) <;>
      cases hrr : (rc.potential_tables.any fun t => decide (t ∈ right_sources)) <;>
        cases hlr : (lc.potential_tables.any fun t => decide (t ∈ right_sources)) <;>
          refine ⟨by simp [pair_from_comparator, h1, h2, hll, hrl, hrr, hlr], ?_⟩ <;>
            (intro hguard
             rcases hguard with hg | ⟨hg1, hg2⟩ <;>
               first
                 | exact absurd hg Bool.false_ne_true
                 | exact absurd hg1 Bool.false_ne_true
                 | exact absurd hg2 Bool.false_ne_true
                 | simp [pair_from_comparator, h1, h2, hll, hrl, hrr, hlr])

/-- Claim C1 witness: an inverted comparator (left operand from the right
side, right operand from the left side) is swapped, after which
`column_left`'s tables intersect the accumulated left-side set. -/
theorem c1_join_orientation_witness :
    ((pair_from_comparator ⟨[], [], []⟩ (fun _ => "") ["A"] ["B"]
        (Expr.cmp "eq" (some (Expr.col "x" "B"))
          (some (Expr.col "y" "A")))).column_left.potential_tables.any
      fun t => decide (t ∈ (["A"] : List String))) = true :=
  (c1_join_orientation ⟨[], [], []⟩ (fun _ => "") ["A"] ["B"]
    (Expr.cmp "eq" (some (Expr.col "x" "B")) (some (Expr.col "y" "A")))
    (Column.mk "x" ["B"] []) (Column.mk "y" ["A"] []) none none
    rfl rfl).2 (Or.inl rfl)

/-- Claim C1 counterexample: when neither operand's tables intersect either
accumulated side, no swap happens and the reported `column_left`'s tables
do not intersect the left-side set, although both operands resolve to
Columns — so the claim's unconditional orientation guarantee is false as
stated. -/
theorem c1_counterexample :
    (extract_join_operand ⟨[], [], []⟩ (fun _ => "")
        (argThis (Expr.cmp "eq" (some (Expr.col "x" "ZZ"))
          (some (Expr.col "y" "WW")))) none).1 =
      some (Column.mk "x" ["ZZ"] []) ∧
    (extract_join_operand ⟨[], [], []⟩ (fun _ => "")
        (argExpression (Expr.cmp "eq" (some (Expr.col "x" "ZZ"))
          (some (Expr.col "y" "WW")))) none).1 =
      some (Column.mk "y" ["WW"] []) ∧
    (columns_from_condition ⟨[], [], []⟩ (fun _ => "")
        (some (Expr.cmp "eq" (some (Expr.col "x" "ZZ"))
          (some (Expr.col "y" "WW")))) ["L"] ["R"]).map
      (fun p => (p.column_left.col_name, p.column_left.potential_tables)) =
      [("x", ["ZZ"])] ∧
    ("ZZ" ∈ (["L"] : List String) → False) := by
  refine ⟨rfl, rfl, rfl, by decide⟩
